import Mathlib

/-!
Verification of the PowerTrader trading loop against its specification.

Shallow embedding of the relevant parts of the repository:
  * `exchanges/binance_client.py` : `BinanceExchangeClient.adjust_order_params`
  * `pt_trader.py`                : trailing profit-margin tick, DCA window
                                    counter and gate, cost-basis back-fill,
                                    DCA stage initialisation, account
                                    snapshot fallback, `get_price` (binance),
                                    Ed25519 buy precision-repair loop
  * `brokers/paper.py`            : `PaperBroker.place_buy_order`,
                                    `PaperBroker.place_sell_order`

Money and quantity values are embedded as exact rationals.  Python
`Decimal` arithmetic on the inputs in question (ratios, comparisons,
`to_integral_value(ROUND_DOWN)`) is exact rational arithmetic, so `ℚ`
is a faithful carrier.
-/

/-! ### Rounding helpers -/

/-- Truncation toward zero of a rational, as performed by
`Decimal.to_integral_value(rounding=ROUND_DOWN)`. -/
def truncQ (x : ℚ) : ℤ :=
  if 0 ≤ x then ⌊x⌋ else -⌊-x⌋

/-- `(x / s).to_integral_value(ROUND_DOWN) * s` from `adjust_order_params`:
snap `x` down to an integer multiple of the step `s`. -/
def floorStep (x s : ℚ) : ℚ :=
  (truncQ (x / s) : ℚ) * s

/-! ### `BinanceExchangeClient.adjust_order_params`
(`src/exchanges/binance_client.py`, lines 436-485)

The symbol filters are the cached exchange-info values.  `minNotional`
is `Option ℚ`: the code reads
`filters.get("MIN_NOTIONAL", {}).get("minNotional", None)` and guards the
check with the truthiness of that string, so `none` models an absent (or
empty) `minNotional` entry.  A `none` result models the `ValueError`
raises. -/

structure BinanceFilters where
  stepSize : ℚ
  minQty : ℚ
  tickSize : ℚ
  minPrice : ℚ
  minNotional : Option ℚ
deriving DecidableEq

/-- Quantity adjustment: floored to a multiple of `stepSize` when
`stepSize > 0` (`if step_size and step_size > 0`). -/
def adjQty (f : BinanceFilters) (q : ℚ) : ℚ :=
  if 0 < f.stepSize then floorStep q f.stepSize else q

/-- Price adjustment: floored to a multiple of `tickSize` when
`tickSize > 0` (`if px is not None and tick_size and tick_size > 0`). -/
def adjPx (f : BinanceFilters) (p : ℚ) : ℚ :=
  if 0 < f.tickSize then floorStep p f.tickSize else p

/-- The price the `minNotional` check multiplies against: the (possibly
floored) submitted price, or the last ticker price when no price was
given (`if px is None: px = Decimal(str(self.get_price(symbol_norm)))`). -/
def effectivePx (f : BinanceFilters) (ticker : ℚ) : Option ℚ → ℚ
  | some p => adjPx f p
  | none => ticker

/-- `BinanceExchangeClient.adjust_order_params(symbol, quantity, price)`.
Returns `(qty, price?, changed)`; `none` models a raised `ValueError`. -/
def adjustOrderParams (f : BinanceFilters) (ticker q : ℚ) (price : Option ℚ) :
    Option (ℚ × Option ℚ × Bool) :=
  let qty := adjQty f q
  let changedQ := decide (qty ≠ q)
  if f.minQty ≠ 0 ∧ qty < f.minQty then none
  else
    let pxPair : Option (Option ℚ × Bool) :=
      match price with
      | none => some (none, changedQ)
      | some p =>
        if 0 < f.tickSize then
          let np := floorStep p f.tickSize
          if f.minPrice ≠ 0 ∧ np < f.minPrice then none
          else some (some np, changedQ || decide (np ≠ p))
        else some (some p, changedQ)
    match pxPair with
    | none => none
    | some (px, changed) =>
      match f.minNotional with
      | none => some (qty, px, changed)
      | some m =>
        let pxe := px.getD ticker
        if qty * pxe < m then none
        else some (qty, some pxe, changed)

/-- Every step-snapped value is an integer multiple of the step. -/
theorem floorStep_int_mul (x s : ℚ) : ∃ k : ℤ, floorStep x s = (k : ℚ) * s :=
  ⟨truncQ (x / s), rfl⟩

/-- Failure characterisation of `adjust_order_params`: it raises exactly when
the floored quantity violates a nonzero `minQty`, when a price is given,
`tickSize > 0`, `minPrice` is nonzero and the floored price is below
`minPrice`, or when a `minNotional` entry is present and the floored
quantity times the effective price is below it. -/
theorem adjustOrderParams_none_iff (f : BinanceFilters) (ticker q : ℚ) (pOpt : Option ℚ) :
    adjustOrderParams f ticker q pOpt = none ↔
      ((f.minQty ≠ 0 ∧ adjQty f q < f.minQty)
      ∨ (∃ p, pOpt = some p ∧ 0 < f.tickSize ∧ f.minPrice ≠ 0 ∧ floorStep p f.tickSize < f.minPrice)
      ∨ (∃ m, f.minNotional = some m ∧ adjQty f q * effectivePx f ticker pOpt < m)) := by
  classical
  by_cases hA : f.minQty ≠ 0 ∧ adjQty f q < f.minQty
  · simp [adjustOrderParams, hA]
  · rcases pOpt with (_ | p)
    · rcases hM : f.minNotional with (_ | m)
      · simp [adjustOrderParams, hA, hM]
      · by_cases hN : adjQty f q * ticker < m
        · simp [adjustOrderParams, hA, hM, hN, effectivePx]
        · simp [adjustOrderParams, hA, hM, hN, effectivePx]
    · by_cases hT : 0 < f.tickSize
      · by_cases hP : f.minPrice ≠ 0 ∧ floorStep p f.tickSize < f.minPrice
        · simp [adjustOrderParams, hA, hT, hP]
        · rcases hM : f.minNotional with (_ | m)
          · simp [adjustOrderParams, hA, hT, hP, hM]
          · by_cases hN : adjQty f q * floorStep p f.tickSize < m
            · simp [adjustOrderParams, hA, hT, hP, hM, hN, effectivePx, adjPx]
            · simp [adjustOrderParams, hA, hT, hP, hM, hN, effectivePx, adjPx]
      · rcases hM : f.minNotional with (_ | m)
        · simp [adjustOrderParams, hA, hT, hM]
        · by_cases hN : adjQty f q * p < m
          · simp [adjustOrderParams, hA, hT, hM, hN, effectivePx, adjPx]
          · simp [adjustOrderParams, hA, hT, hM, hN, effectivePx, adjPx]

/-- Postconditions of every successful `adjust_order_params` call. -/
theorem adjustOrderParams_some_props (f : BinanceFilters) (ticker q : ℚ) (pOpt : Option ℚ)
    (q' : ℚ) (px' : Option ℚ) (ch : Bool)
    (h : adjustOrderParams f ticker q pOpt = some (q', px', ch)) :
    q' = adjQty f q
    ∧ (0 < f.stepSize → ∃ k : ℤ, q' = (k : ℚ) * f.stepSize)
    ∧ (f.minQty ≠ 0 → f.minQty ≤ q')
    ∧ (∀ p, pOpt = some p → 0 < f.tickSize →
        px' = some (floorStep p f.tickSize)
        ∧ (∃ k : ℤ, floorStep p f.tickSize = (k : ℚ) * f.tickSize)
        ∧ (f.minPrice ≠ 0 → f.minPrice ≤ floorStep p f.tickSize))
    ∧ (∀ m, f.minNotional = some m →
        px' = some (effectivePx f ticker pOpt) ∧ m ≤ q' * effectivePx f ticker pOpt) := by
  classical
  by_cases hA : f.minQty ≠ 0 ∧ adjQty f q < f.minQty
  · simp [adjustOrderParams, hA] at h
  · rcases pOpt with (_ | p)
    · rcases hM : f.minNotional with (_ | m)
      · simp [adjustOrderParams, hA, hM] at h
        obtain ⟨rfl, rfl, -⟩ := h
        refine ⟨rfl, ?_, ?_, ?_, ?_⟩
        · intro hS; simpa [adjQty, hS] using floorStep_int_mul q f.stepSize
        · intro hq; exact not_lt.mp ((not_and.mp hA) hq)
        · intro p hp; exact Option.noConfusion hp
        · intro m hm; exact Option.noConfusion hm
      · by_cases hN : adjQty f q * ticker < m
        · simp [adjustOrderParams, hA, hM, hN] at h
        · simp [adjustOrderParams, hA, hM, hN] at h
          obtain ⟨rfl, rfl, -⟩ := h
          refine ⟨rfl, ?_, ?_, ?_, ?_⟩
          · intro hS; simpa [adjQty, hS] using floorStep_int_mul q f.stepSize
          · intro hq; exact not_lt.mp ((not_and.mp hA) hq)
          · intro p hp; exact Option.noConfusion hp
          · intro m' hm'
            injection hm' with hm''; subst hm''
            exact ⟨by simp [effectivePx], by simpa [effectivePx] using not_lt.mp hN⟩
    · by_cases hT : 0 < f.tickSize
      · by_cases hP : f.minPrice ≠ 0 ∧ floorStep p f.tickSize < f.minPrice
        · simp [adjustOrderParams, hA, hT, hP] at h
        · rcases hM : f.minNotional with (_ | m)
          · simp [adjustOrderParams, hA, hT, hP, hM] at h
            obtain ⟨rfl, rfl, -⟩ := h
            refine ⟨rfl, ?_, ?_, ?_, ?_⟩
            · intro hS; simpa [adjQty, hS] using floorStep_int_mul q f.stepSize
            · intro hq; exact not_lt.mp ((not_and.mp hA) hq)
            · intro p' hp' hT'
              injection hp' with hp''; subst hp''
              exact ⟨rfl, floorStep_int_mul p f.tickSize, fun hmp => not_lt.mp ((not_and.mp hP) hmp)⟩
            · intro m hm; exact Option.noConfusion hm
          · by_cases hN : adjQty f q * floorStep p f.tickSize < m
            · simp [adjustOrderParams, hA, hT, hP, hM, hN] at h
            · simp [adjustOrderParams, hA, hT, hP, hM, hN] at h
              obtain ⟨rfl, rfl, -⟩ := h
              refine ⟨rfl, ?_, ?_, ?_, ?_⟩
              · intro hS; simpa [adjQty, hS] using floorStep_int_mul q f.stepSize
              · intro hq; exact not_lt.mp ((not_and.mp hA) hq)
              · intro p' hp' hT'
                injection hp' with hp''; subst hp''
                exact ⟨rfl, floorStep_int_mul p f.tickSize, fun hmp => not_lt.mp ((not_and.mp hP) hmp)⟩
              · intro m' hm'
                injection hm' with hm''; subst hm''
                exact ⟨by simp [effectivePx, adjPx, hT], by simpa [effectivePx, adjPx, hT] using not_lt.mp hN⟩
      · rcases hM : f.minNotional with (_ | m)
        · simp [adjustOrderParams, hA, hT, hM] at h
          obtain ⟨rfl, rfl, -⟩ := h
          refine ⟨rfl, ?_, ?_, ?_, ?_⟩
          · intro hS; simpa [adjQty, hS] using floorStep_int_mul q f.stepSize
          · intro hq; exact not_lt.mp ((not_and.mp hA) hq)
          · intro p' hp' hT'; exact absurd hT' hT
          · intro m hm; exact Option.noConfusion hm
        · by_cases hN : adjQty f q * p < m
          · simp [adjustOrderParams, hA, hT, hM, hN] at h
          · simp [adjustOrderParams, hA, hT, hM, hN] at h
            obtain ⟨rfl, rfl, -⟩ := h
            refine ⟨rfl, ?_, ?_, ?_, ?_⟩
            · intro hS; simpa [adjQty, hS] using floorStep_int_mul q f.stepSize
            · intro hq; exact not_lt.mp ((not_and.mp hA) hq)
            · intro p' hp' hT'; exact absurd hT' hT
            · intro m' hm'
              injection hm' with hm''; subst hm''
              exact ⟨by simp [effectivePx, adjPx, hT], by simpa [effectivePx, adjPx, hT] using not_lt.mp hN⟩

/-- Claim C1, counterexample to the stated failure conditions.
First input: filters with `tickSize = 0` and `minPrice = 1`; a given price
of `1/2` is below `minPrice`, yet the call succeeds, because the source
only checks `minPrice` inside the `tick_size > 0` branch.
Second input: filters with `tickSize = 1` and `minNotional = 21/2`; the
given price `53/5` satisfies `qty * given_price = 53/5 ≥ 21/2`, yet the
call fails, because the source multiplies by the floored price `10`,
giving a notional of `10 < 21/2`. -/
theorem adjustOrderParams_claim_counterexample :
    adjustOrderParams ⟨0, 0, 0, 1, none⟩ 1 1 (some (1/2)) = some (1, some (1/2), false)
    ∧ ((1 : ℚ)/2 < 1)
    ∧ adjustOrderParams ⟨0, 0, 1, 0, some (21/2)⟩ 1 1 (some (53/5)) = none
    ∧ ((21 : ℚ)/2 ≤ 1 * (53/5)) := by
  refine ⟨?_, by norm_num, ?_, by norm_num⟩ <;>
    norm_num [adjustOrderParams, adjQty, adjPx, floorStep, truncQ]

/-- Claim C1 (amended): `adjust_order_params` floors the quantity to a
multiple of `stepSize` when `stepSize > 0` and the price to a multiple of
`tickSize` when a price is given and `tickSize > 0`; it fails exactly when
the floored quantity is below a nonzero `minQty`, when a price is given,
`tickSize > 0`, `minPrice` is nonzero and the floored price is below
`minPrice`, or when a `minNotional` entry is present and the floored
quantity times the effective price (the floored given price, or the last
ticker price when none is given) is below it; and every order it lets
through satisfies the corresponding multiple-of and minimum bounds. -/
theorem adjustOrderParams_amended_spec (f : BinanceFilters) (ticker q : ℚ) (pOpt : Option ℚ) :
    (adjustOrderParams f ticker q pOpt = none ↔
      ((f.minQty ≠ 0 ∧ adjQty f q < f.minQty)
      ∨ (∃ p, pOpt = some p ∧ 0 < f.tickSize ∧ f.minPrice ≠ 0 ∧ floorStep p f.tickSize < f.minPrice)
      ∨ (∃ m, f.minNotional = some m ∧ adjQty f q * effectivePx f ticker pOpt < m)))
    ∧ (∀ q' px' ch, adjustOrderParams f ticker q pOpt = some (q', px', ch) →
        q' = adjQty f q
        ∧ (0 < f.stepSize → ∃ k : ℤ, q' = (k : ℚ) * f.stepSize)
        ∧ (f.minQty ≠ 0 → f.minQty ≤ q')
        ∧ (∀ p, pOpt = some p → 0 < f.tickSize →
            px' = some (floorStep p f.tickSize)
            ∧ (∃ k : ℤ, floorStep p f.tickSize = (k : ℚ) * f.tickSize)
            ∧ (f.minPrice ≠ 0 → f.minPrice ≤ floorStep p f.tickSize))
        ∧ (∀ m, f.minNotional = some m →
            px' = some (effectivePx f ticker pOpt) ∧ m ≤ q' * effectivePx f ticker pOpt)) :=
  ⟨adjustOrderParams_none_iff f ticker q pOpt,
   fun q' px' ch h => adjustOrderParams_some_props f ticker q pOpt q' px' ch h⟩

/-- Claim C1 witness: the HMAC-rounder scenario
`step_size = 1/10000`, `min_qty = 1/10000`, `tick_size = 1/10`,
`min_notional = 10`, quantity `123/100000`, price `1234567/100`. -/
theorem adjustOrderParams_amended_spec_witness :
    (∃ k : ℤ, (3/2500 : ℚ) = (k : ℚ) * (1/10000))
    ∧ ((1 : ℚ)/10000 ≤ 3/2500)
    ∧ ((10 : ℚ) ≤ 3/2500 *
        effectivePx ⟨1/10000, 1/10000, 1/10, 0, some 10⟩ 1 (some (1234567/100))) := by
  have h := (adjustOrderParams_amended_spec ⟨1/10000, 1/10000, 1/10, 0, some 10⟩ 1
      (123/100000) (some (1234567/100))).2 (3/2500) (some (61728/5)) true
      (by norm_num [adjustOrderParams, adjQty, adjPx, floorStep, truncQ])
  refine ⟨?_, ?_, ?_⟩
  · have := h.2.1 (by norm_num)
    simpa [adjQty, floorStep, truncQ] using this
  · have := h.2.2.1 (by norm_num)
    exact this
  · exact (h.2.2.2.2 10 rfl).2

/-! ### `CryptoAPITrading.get_price`, binance branch
(`src/pt_trader.py`, lines 1333-1369)

Per symbol: a successful live ticker lookup (`price > 0`) publishes the
single ticker price as both ask (buy price) and bid (sell price) and
refreshes the last-good cache; otherwise the cached `(ask, bid)` pair is
used when both entries are positive.  `live = none` models an exception
from `self.exchange.get_price(symbol)`. -/

/-- One symbol of the binance branch of `get_price`.  Returns
`some (ask, bid)` when the symbol is kept in the maps (valid), `none`
when it is dropped this tick. -/
def getPriceBinanceSymbol (live : Option ℚ) (cached : Option (ℚ × ℚ)) : Option (ℚ × ℚ) :=
  match live with
  | some p =>
    if 0 < p then some (p, p)
    else match cached with
      | some (a, b) => if 0 < a ∧ 0 < b then some (a, b) else none
      | none => none
  | none =>
    match cached with
    | some (a, b) => if 0 < a ∧ 0 < b then some (a, b) else none
    | none => none

/-- Claim C10: under the binance provider, a successful live price lookup
stores the single ticker price as both ask and bid, so ask equals bid for
every such symbol; whenever the published ask and bid differ, the values
came from the last-good cache and the live lookup did not succeed. -/
theorem getPriceBinanceSymbol_spec (live : Option ℚ) (cached : Option (ℚ × ℚ)) :
    (∀ p, live = some p → 0 < p → getPriceBinanceSymbol live cached = some (p, p))
    ∧ (∀ a b, getPriceBinanceSymbol live cached = some (a, b) → a ≠ b →
        cached = some (a, b) ∧ ∀ p, live = some p → p ≤ 0) := by
  constructor
  · rintro p rfl hp
    simp [getPriceBinanceSymbol, hp]
  · rintro a b h hab
    rcases live with (_ | p)
    · rcases cached with (_ | ⟨c, d⟩)
      · simp [getPriceBinanceSymbol] at h
      · by_cases hcd : 0 < c ∧ 0 < d
        · simp [getPriceBinanceSymbol, hcd] at h
          obtain ⟨rfl, rfl⟩ := h
          exact ⟨rfl, fun p hp => Option.noConfusion hp⟩
        · simp [getPriceBinanceSymbol, hcd] at h
    · by_cases hp : 0 < p
      · simp [getPriceBinanceSymbol, hp] at h
        obtain ⟨rfl, rfl⟩ := h
        exact absurd rfl hab
      · rcases cached with (_ | ⟨c, d⟩)
        · simp [getPriceBinanceSymbol, hp] at h
        · by_cases hcd : 0 < c ∧ 0 < d
          · simp [getPriceBinanceSymbol, hp, hcd] at h
            obtain ⟨rfl, rfl⟩ := h
            exact ⟨rfl, fun p' hp' => by injection hp' with hq; subst hq; exact not_lt.mp hp⟩
          · simp [getPriceBinanceSymbol, hp, hcd] at h

/-- Claim C10 witness: live ticker `7/2` succeeds, so ask = bid = `7/2`;
and a cache-fallback tick with cached `(3, 2)` and a nonpositive live
price publishes differing ask and bid coming from the cache. -/
theorem getPriceBinanceSymbol_spec_witness :
    getPriceBinanceSymbol (some (7/2)) (some (1, 1)) = some (7/2, 7/2)
    ∧ ((some (1, 1) : Option (ℚ × ℚ)) = some (1, 1)) := by
  refine ⟨?_, rfl⟩
  exact (getPriceBinanceSymbol_spec (some (7/2)) (some (1, 1))).1 (7/2) rfl (by norm_num)

/-! ### DCA rolling 24h window
(`src/pt_trader.py`: `_dca_window_count` lines 991-1007, and the gate in
`manage_trades` lines 2044-2096) -/

/-- `self.dca_window_seconds = 24 * 60 * 60`. -/
def dcaWindowSeconds : ℚ := 24 * 60 * 60

/-- `self.max_dca_buys_per_24h = 2`. -/
def maxDcaBuysPer24h : ℕ := 2

/-- `CryptoAPITrading._dca_window_count(base_symbol, now)`: keep the
recorded DCA-buy timestamps `t` with `t > last_sell` and `t ≥ now - window`
and return how many remain. -/
def dcaWindowCount (ts : List ℚ) (lastSell now : ℚ) : ℕ :=
  (ts.filter (fun t => decide (lastSell < t) && decide (now - dcaWindowSeconds ≤ t))).length

/-- Outcome of the DCA block of `manage_trades` for one coin on one tick. -/
inductive DcaAction where
  | placeBuy
  | skipWindow
  | skipFunds
  | noTrigger
deriving DecidableEq

/-- The DCA gate in `manage_trades`: when the trigger condition
(`hard_hit or neural_hit`) holds, the 24h window counter is consulted
first, then the funds check; only then is a buy placed. -/
def dcaGate (triggered : Bool) (recentDca maxPer : ℕ) (dcaAmount buyingPower : ℚ) : DcaAction :=
  if triggered then
    if maxPer ≤ recentDca then .skipWindow
    else if dcaAmount ≤ buyingPower then .placeBuy
    else .skipFunds
  else .noTrigger

/-- Claim C3: `_dca_window_count` returns exactly the number of recorded
DCA-buy timestamps strictly greater than the last sell timestamp and
within the rolling 24-hour window ending at `now`; and on a tick whose
count is at least `max_dca_buys_per_24h = 2`, the DCA engine places no
buy even though the trigger condition holds. -/
theorem dcaWindowCount_spec :
    (∀ (ts : List ℚ) (lastSell now : ℚ),
      dcaWindowCount ts lastSell now
        = ts.countP (fun t => decide (lastSell < t ∧ now - 86400 ≤ t)))
    ∧ (∀ (cnt : ℕ) (amount bp : ℚ), maxDcaBuysPer24h ≤ cnt →
        dcaGate true cnt maxDcaBuysPer24h amount bp ≠ DcaAction.placeBuy) := by
  constructor
  · intro ts lastSell now
    rw [dcaWindowCount, ← List.countP_eq_length_filter]
    apply List.countP_congr
    intro t _
    have : dcaWindowSeconds = 86400 := by norm_num [dcaWindowSeconds]
    simp [this, Bool.decide_and]
  · intro cnt amount bp hcnt
    simp [dcaGate, hcnt]

/-- Claim C3 witness: timestamps `{10, 100, 200}` with last sell at `50`
and `now = 86500` count exactly `2` (the `10` is before the last sell),
and a count of `2` blocks the buy. -/
theorem dcaWindowCount_spec_witness :
    dcaWindowCount [10, 100, 200] 50 86500 = 2
    ∧ dcaGate true 2 maxDcaBuysPer24h 5 1000 ≠ DcaAction.placeBuy := by
  constructor
  · rw [dcaWindowCount_spec.1]
    norm_num
  · exact dcaWindowCount_spec.2 2 5 1000 (by norm_num [maxDcaBuysPer24h])

/-! ### Trailing profit-margin engine
(`src/pt_trader.py`, `manage_trades` lines 1947-2016)

Per-coin state dict `{"active", "line", "peak", "was_above"}`.  A tick of
the block (run only when `avg_cost_basis > 0`) takes the base PM line
(`avg_cost_basis * (1 + pm_start_pct/100)`) and the current sell (bid)
price.  `none` models the forced TRAIL_SELL, which pops the state. -/

structure TrailState where
  active : Bool
  line : ℚ
  peak : ℚ
  was_above : Bool
deriving DecidableEq

/-- `self.trailing_gap_pct = 0.5`. -/
def trailingGapPct : ℚ := 1/2

/-- `trail_gap = self.trailing_gap_pct / 100.0` (0.5% => 0.005). -/
def trailGap : ℚ := trailingGapPct / 100

/-- The compare-and-assign idiom `if x < y: x = y` of the source. -/
def pymax (x y : ℚ) : ℚ := if x < y then y else x

theorem pymax_eq_max (x y : ℚ) : pymax x y = max x y := by
  unfold pymax
  rcases lt_or_le x y with h | h
  · simp [h, max_eq_right h.le]
  · simp [not_lt.mpr h, max_eq_left h]

/-- Fresh per-coin state (`state is None` branch):
`{"active": False, "line": base_pm_line, "peak": 0.0, "was_above": False}`. -/
def initTrail (base : ℚ) : TrailState :=
  ⟨false, base, 0, false⟩

/-- One tick of the trailing PM block for a coin whose state is already
present.  Returns the updated state, or `none` when the forced sell
triggers (the state is popped). -/
def tickTrailing (base sell : ℚ) (st : TrailState) : Option TrailState :=
  let line0 := if st.active then pymax st.line base else base
  let above := decide (line0 ≤ sell)
  let peak0 := if !st.active && above then sell else st.peak
  let active1 := st.active || above
  if active1 then
    let peak1 := pymax peak0 sell
    let nl := pymax (peak1 * (1 - trailGap)) base
    let line1 := pymax line0 nl
    if st.was_above && decide (sell < line1) then none
    else some ⟨true, line1, peak1, above⟩
  else
    some ⟨false, line0, peak0, above⟩

/-- A run of consecutive ticks, each with its own `(base, sell)` pair;
stops (returns `none`) as soon as a tick forces the trailing sell. -/
def foldTicks : List (ℚ × ℚ) → TrailState → Option TrailState
  | [], st => some st
  | (b, s) :: rest, st =>
    match tickTrailing b s st with
    | none => none
    | some st' => foldTicks rest st'

theorem max_pair_rearrange (a b c : ℚ) : max (max a b) (max c b) = max a (max b c) := by
  rw [max_comm c b, ← max_assoc, max_assoc a b b, max_self, max_assoc]

/-- One active tick that does not sell: `peak` becomes `max peak sell` and
`line` becomes `max line (max base (peak1 * (1 - trailGap)))`. -/
theorem tickTrailing_active (base sell : ℚ) (st st' : TrailState)
    (ha : st.active = true) (h : tickTrailing base sell st = some st') :
    st'.active = true
    ∧ st'.peak = max st.peak sell
    ∧ st'.line = max st.line (max base (max st.peak sell * (1 - trailGap)))
    ∧ st.line ≤ st'.line := by
  unfold tickTrailing at h
  rw [ha] at h
  simp only [Bool.not_true, Bool.false_and, Bool.true_or, if_true, Bool.false_eq_true,
    if_false, pymax_eq_max] at h
  split at h
  · exact Option.noConfusion h
  · injection h with h'
    subst h'
    refine ⟨rfl, rfl, ?_, ?_⟩
    · exact max_pair_rearrange st.line base (max st.peak sell * (1 - trailGap))
    · calc st.line ≤ max st.line base := le_max_left _ _
        _ ≤ max (max st.line base) (max (max st.peak sell * (1 - trailGap)) base) :=
            le_max_left _ _

/-- Claim C2: while the trailing state is active, every tick updates the
peak to `max peak bid` and the line to
`max line (max base_line (peak1 * (1 - 0.005)))` where `peak1` is the
updated peak, and across any run of consecutive ticks that keeps the
state active (no forced sell), the line never decreases. -/
theorem trailingLine_monotone :
    (∀ (base sell : ℚ) (st st' : TrailState), st.active = true →
      tickTrailing base sell st = some st' →
        st'.peak = max st.peak sell
        ∧ st'.line = max st.line (max base (max st.peak sell * (1 - trailGap)))
        ∧ st.line ≤ st'.line)
    ∧ (∀ (ticks : List (ℚ × ℚ)) (st st' : TrailState), st.active = true →
        foldTicks ticks st = some st' → st.line ≤ st'.line ∧ st'.active = true) := by
  constructor
  · intro base sell st st' ha h
    obtain ⟨-, h2, h3, h4⟩ := tickTrailing_active base sell st st' ha h
    exact ⟨h2, h3, h4⟩
  · intro ticks
    induction ticks with
    | nil =>
      intro st st' ha h
      injection h with h'
      subst h'
      exact ⟨le_refl _, ha⟩
    | cons t rest ih =>
      intro st st' ha h
      obtain ⟨b, s⟩ := t
      unfold foldTicks at h
      rcases hstep : tickTrailing b s st with (_ | st1)
      · rw [hstep] at h; exact Option.noConfusion h
      · rw [hstep] at h
        obtain ⟨ha1, -, -, hline⟩ := tickTrailing_active b s st st1 ha hstep
        obtain ⟨hrest, hact⟩ := ih st1 st' ha1 h
        exact ⟨le_trans hline hrest, hact⟩

/-- Claim C2 witness: an armed state with line and peak `100` over two
ticks with bids `110` then `120` keeps a non-decreasing line and stays
active. -/
theorem trailingLine_monotone_witness :
    foldTicks [(100, 110), (100, 120)] ⟨true, 100, 100, true⟩ = some ⟨true, 597/5, 120, true⟩
    ∧ (100 : ℚ) ≤ (597/5 : ℚ) := by
  have hfold : foldTicks [(100, 110), (100, 120)] ⟨true, 100, 100, true⟩
      = some ⟨true, 597/5, 120, true⟩ := by
    norm_num [foldTicks, tickTrailing, pymax, trailGap, trailingGapPct]
  refine ⟨hfold, ?_⟩
  exact (trailingLine_monotone.2 [(100, 110), (100, 120)]
      ⟨true, 100, 100, true⟩ ⟨true, 597/5, 120, true⟩ rfl hfold).1

/-! ### `PaperBroker` (`src/brokers/paper.py`)

Holdings are a dict `coin -> {"quantity", "avg_cost"}`, embedded as an
association list with dict update semantics (replace the existing key in
place, or append).  Orders and trades only record the fields the claims
mention; ids and wall-clock timestamps are omitted.  Prices are the
lookup results of `get_price([symbol])`: `none` models a symbol missing
from the returned map. -/

inductive Side where
  | buy
  | sell
deriving DecidableEq

structure PaperHolding where
  quantity : ℚ
  avg_cost : ℚ
deriving DecidableEq

structure OrderRec where
  side : Side
  coin : String
  quantity : ℚ
  price : ℚ
  amount : ℚ
deriving DecidableEq

structure PaperState where
  balance : ℚ
  holdings : List (String × PaperHolding)
  orders : List OrderRec
  trades : List OrderRec
deriving DecidableEq

/-- Dict read `self._state["holdings"].get(coin)`. -/
def hLookup (hs : List (String × PaperHolding)) (coin : String) : Option PaperHolding :=
  (hs.find? (fun kv => kv.1 == coin)).map (·.2)

/-- Dict write `self._state["holdings"][coin] = h`. -/
def hInsert : List (String × PaperHolding) → String → PaperHolding → List (String × PaperHolding)
  | [], c, h => [(c, h)]
  | (k, v) :: rest, c, h => if k == c then (c, h) :: rest else (k, v) :: hInsert rest c h

/-- Dict delete `del self._state["holdings"][coin]`. -/
def hErase : List (String × PaperHolding) → String → List (String × PaperHolding)
  | [], _ => []
  | (k, v) :: rest, c => if k == c then rest else (k, v) :: hErase rest c

theorem hLookup_hInsert (hs : List (String × PaperHolding)) (c : String) (h : PaperHolding) :
    hLookup (hInsert hs c h) c = some h := by
  induction hs with
  | nil => simp [hInsert, hLookup]
  | cons kv rest ih =>
    obtain ⟨k, v⟩ := kv
    by_cases hk : k = c
    · simp [hInsert, hLookup, hk]
    · rw [hInsert, if_neg (by simpa using hk)]
      rw [hLookup, List.find?_cons_of_neg _ (by simpa using hk)]
      exact ih

theorem hLookup_hErase (hs : List (String × PaperHolding)) (c : String)
    (hnd : (hs.map Prod.fst).Nodup) :
    hLookup (hErase hs c) c = none := by
  induction hs with
  | nil => simp [hErase, hLookup]
  | cons kv rest ih =>
    obtain ⟨k, v⟩ := kv
    simp only [List.map_cons, List.nodup_cons] at hnd
    by_cases hk : k = c
    · rw [hErase, if_pos (by simpa using hk)]
      subst hk
      rw [hLookup]
      have hfind : rest.find? (fun kv => kv.1 == k) = none := by
        apply List.find?_eq_none.mpr
        intro x hx
        simp only [beq_iff_eq]
        intro hxk
        exact hnd.1 (hxk ▸ List.mem_map_of_mem Prod.fst hx)
      rw [hfind]
      rfl
    · rw [hErase, if_neg (by simpa using hk)]
      rw [hLookup, List.find?_cons_of_neg _ (by simpa using hk)]
      exact ih hnd.2

/-- `PaperBroker.place_buy_order`: spend `amount` of the quote balance at
the ask `price` (`none` when the symbol is missing from the buy-price
map) and fold the bought quantity into the holding by weighted average
cost. -/
def paperBuy (st : PaperState) (coin : String) (price : Option ℚ) (amount : ℚ) :
    Option PaperState :=
  match price with
  | none => none
  | some p =>
    if st.balance < amount then none
    else
      let q := amount / p
      let holdings :=
        match hLookup st.holdings coin with
        | some ex =>
          let newQty := ex.quantity + q
          let newAvg :=
            if 0 < newQty then (ex.quantity * ex.avg_cost + q * p) / newQty else p
          hInsert st.holdings coin ⟨newQty, newAvg⟩
        | none => hInsert st.holdings coin ⟨q, p⟩
      some { balance := st.balance - amount
           , holdings := holdings
           , orders := st.orders ++ [⟨Side.buy, coin, q, p, amount⟩]
           , trades := st.trades ++ [⟨Side.buy, coin, q, p, amount⟩] }

/-- `PaperBroker.place_sell_order`: sell `q` units at the bid `price`.
The availability check precedes the price lookup, mirroring the source;
a remainder of at most `1e-8` deletes the holding. -/
def paperSell (st : PaperState) (coin : String) (price : Option ℚ) (q : ℚ) :
    Option PaperState :=
  let available := ((hLookup st.holdings coin).map (·.quantity)).getD 0
  if available < q then none
  else
    match price with
    | none => none
    | some p =>
      let amount := q * p
      let newQty := available - q
      let holdings :=
        if newQty ≤ 1/100000000 then hErase st.holdings coin
        else
          match hLookup st.holdings coin with
          | some ex => hInsert st.holdings coin ⟨newQty, ex.avg_cost⟩
          | none => st.holdings
      some { balance := st.balance + amount
           , holdings := holdings
           , orders := st.orders ++ [⟨Side.sell, coin, q, p, amount⟩]
           , trades := st.trades ++ [⟨Side.sell, coin, q, p, amount⟩] }

/-- Claim C6: against a holding of quantity `Q`, a paper sell of `q > Q`
returns null with the state untouched (the embedding returns `none`
before building any new state), and a sell of `q ≤ Q` at bid `p` credits
`q * p` to the balance, removes the holding exactly when
`Q - q ≤ 1e-8`, and otherwise leaves it with quantity exactly `Q - q`
(same average cost).  The key-uniqueness hypothesis is the dict invariant
of `self._state["holdings"]`. -/
theorem paperSell_spec (st : PaperState) (coin : String) (p q Q avg : ℚ)
    (hnd : (st.holdings.map Prod.fst).Nodup)
    (hl : hLookup st.holdings coin = some ⟨Q, avg⟩) :
    (Q < q → ∀ pr, paperSell st coin pr q = none)
    ∧ (q ≤ Q →
        ∃ st', paperSell st coin (some p) q = some st'
          ∧ st'.balance = st.balance + q * p
          ∧ (Q - q ≤ 1/100000000 → hLookup st'.holdings coin = none)
          ∧ (1/100000000 < Q - q → hLookup st'.holdings coin = some ⟨Q - q, avg⟩)
          ∧ st'.orders = st.orders ++ [⟨Side.sell, coin, q, p, q * p⟩]) := by
  constructor
  · intro hQq pr
    unfold paperSell
    rw [hl]
    simp only [Option.map_some', Option.getD_some]
    rw [if_pos hQq]
  · intro hqQ
    have havail : ¬ ((((hLookup st.holdings coin).map (·.quantity)).getD 0) < q) := by
      rw [hl]; simpa using not_lt.mpr hqQ
    by_cases hsmall : Q - q ≤ 1/100000000
    · refine ⟨⟨st.balance + q * p, hErase st.holdings coin,
          st.orders ++ [⟨Side.sell, coin, q, p, q * p⟩],
          st.trades ++ [⟨Side.sell, coin, q, p, q * p⟩]⟩, ?_, rfl, ?_, ?_, rfl⟩
      · unfold paperSell
        rw [hl]
        simp only [Option.map_some', Option.getD_some]
        rw [if_neg (by simpa [hl] using havail), if_pos hsmall]
      · intro h8
        exact hLookup_hErase st.holdings coin hnd
      · intro h8
        exact absurd hsmall (not_le.mpr h8)
    · refine ⟨⟨st.balance + q * p, hInsert st.holdings coin ⟨Q - q, avg⟩,
          st.orders ++ [⟨Side.sell, coin, q, p, q * p⟩],
          st.trades ++ [⟨Side.sell, coin, q, p, q * p⟩]⟩, ?_, rfl, ?_, ?_, rfl⟩
      · unfold paperSell
        rw [hl]
        simp only [Option.map_some', Option.getD_some]
        rw [if_neg (by simpa [hl] using havail), if_neg hsmall]
      · intro h8
        exact absurd h8 hsmall
      · intro h8
        exact hLookup_hInsert st.holdings coin ⟨Q - q, avg⟩

/-- Claim C6 witness: holding of `2` BTC at average cost `10`; a sell of
`3` fails, and a sell of `3/2` at bid `5` credits `15/2` and leaves
exactly `1/2` in the holding. -/
theorem paperSell_spec_witness :
    (paperSell ⟨100, [("BTC", ⟨2, 10⟩)], [], []⟩ "BTC" (some 5) 3 = none)
    ∧ (∃ st', paperSell ⟨100, [("BTC", ⟨2, 10⟩)], [], []⟩ "BTC" (some 5) (3/2) = some st'
        ∧ st'.balance = 100 + (3/2) * 5
        ∧ hLookup st'.holdings "BTC" = some ⟨2 - 3/2, 10⟩) := by
  have base := paperSell_spec ⟨100, [("BTC", ⟨2, 10⟩)], [], []⟩ "BTC" 5 (3/2) 2 10
    (by simp) (by simp [hLookup])
  have base3 := paperSell_spec ⟨100, [("BTC", ⟨2, 10⟩)], [], []⟩ "BTC" 5 3 2 10
    (by simp) (by simp [hLookup])
  constructor
  · exact base3.1 (by norm_num) (some 5)
  · obtain ⟨st', h1, h2, -, h4, -⟩ := base.2 (by norm_num)
    exact ⟨st', h1, h2, h4 (by norm_num)⟩

/-- A sequence of paper buys for one coin: each element is the quote
amount and the ask price of one `place_buy_order` call. -/
def buysFold (coin : String) : PaperState → List (ℚ × ℚ) → Option PaperState
  | st, [] => some st
  | st, (a, p) :: rest =>
    match paperBuy st coin (some p) a with
    | none => none
    | some st' => buysFold coin st' rest

/-- Total quote amount spent by a buy sequence. -/
def sumAmounts (l : List (ℚ × ℚ)) : ℚ := (l.map Prod.fst).sum

/-- Total quantity bought by a buy sequence (`amount / price` per buy). -/
def sumQty (l : List (ℚ × ℚ)) : ℚ := (l.map (fun ap => ap.1 / ap.2)).sum

theorem buysFold_invariant (coin : String) (l : List (ℚ × ℚ)) :
    ∀ (st : PaperState) (Q c : ℚ),
      (∀ ap ∈ l, 0 ≤ ap.1 ∧ 0 < ap.2) →
      hLookup st.holdings coin = some ⟨Q, c⟩ → 0 ≤ Q →
      ∀ st', buysFold coin st l = some st' →
        st'.balance = st.balance - sumAmounts l
        ∧ ∃ c', hLookup st'.holdings coin = some ⟨Q + sumQty l, c'⟩
            ∧ (Q + sumQty l) * c' = Q * c + sumAmounts l := by
  induction l with
  | nil =>
    intro st Q c hpos hl hQ st' hfold
    injection hfold with h'
    subst h'
    refine ⟨by simp [sumAmounts], c, by simpa [sumQty] using hl, by simp [sumQty, sumAmounts]⟩
  | cons ap rest ih =>
    intro st Q c hpos hl hQ st' hfold
    obtain ⟨a, p⟩ := ap
    obtain ⟨ha, hp⟩ := hpos (a, p) (List.mem_cons_self _ _)
    unfold buysFold at hfold
    unfold paperBuy at hfold
    rw [hl] at hfold
    dsimp only at hfold
    by_cases hbal : st.balance < a
    · rw [if_pos hbal] at hfold
      exact Option.noConfusion hfold
    · rw [if_neg hbal] at hfold
      dsimp only at hfold
      set q : ℚ := a / p with hq
      have hq0 : 0 ≤ q := div_nonneg ha hp.le
      have hQq : 0 ≤ Q + q := add_nonneg hQ hq0
      set newAvg : ℚ := if 0 < Q + q then (Q * c + q * p) / (Q + q) else p with hnewAvg
      have hmid : hLookup (hInsert st.holdings coin ⟨Q + q, newAvg⟩) coin
          = some ⟨Q + q, newAvg⟩ := hLookup_hInsert st.holdings coin ⟨Q + q, newAvg⟩
      have hqp : q * p = a := div_mul_cancel₀ a hp.ne'
      have hinv : (Q + q) * newAvg = Q * c + a := by
        rcases lt_or_eq_of_le hQq with hpos' | hzero
        · rw [hnewAvg, if_pos hpos', mul_div_cancel₀ _ hpos'.ne', hqp]
        · have hQ0 : Q = 0 := by
            have hq0' : q = 0 := by linarith [hq0, hQ]
            linarith [hq0']
          have hq0' : q = 0 := by linarith [hQ]
          have ha0 : a = 0 := by rw [← hqp, hq0', zero_mul]
          rw [← hzero, zero_mul, hQ0, zero_mul, ha0, add_zero]
      have hstep := ih ⟨st.balance - a,
          hInsert st.holdings coin ⟨Q + q, newAvg⟩,
          st.orders ++ [⟨Side.buy, coin, q, p, a⟩],
          st.trades ++ [⟨Side.buy, coin, q, p, a⟩]⟩ (Q + q) newAvg
          (fun x hx => hpos x (List.mem_cons_of_mem _ hx)) hmid hQq st' hfold
      obtain ⟨hbal', c', hl', hinv'⟩ := hstep
      refine ⟨?_, c', ?_, ?_⟩
      · rw [hbal']
        simp [sumAmounts]
        ring
      · have : Q + q + sumQty rest = Q + sumQty ((a, p) :: rest) := by
          simp [sumQty, hq]
          ring
        rwa [this] at hl'
      · have hsq : Q + q + sumQty rest = Q + sumQty ((a, p) :: rest) := by
          simp [sumQty, hq]
          ring
        have hsa : sumAmounts ((a, p) :: rest) = a + sumAmounts rest := by
          simp [sumAmounts]
        rw [← hsq, hinv', hinv, hsa]
        ring

/-- Claim C9: starting from empty holdings for a coin, any nonempty
sequence of paper buys `(amount_i, ask_i)` followed by one sell of the
entire held quantity at bid `pr` changes the balance by exactly
`(pr - avg_cost) * total_qty`, where `total_qty = sum (amount_i / ask_i)`
and `avg_cost` is the weighted-average cost stored by the buy updates,
which satisfies `total_qty * avg_cost = sum amount_i` (so it is the
quantity-weighted average fill price whenever `total_qty > 0`). -/
theorem paperRoundTrip_pnl (coin : String) (st0 : PaperState) (L : List (ℚ × ℚ)) (pr : ℚ)
    (hempty : hLookup st0.holdings coin = none)
    (hpos : ∀ ap ∈ L, 0 ≤ ap.1 ∧ 0 < ap.2)
    (hne : L ≠ [])
    (st1 : PaperState) (hfold : buysFold coin st0 L = some st1) :
    ∃ Q avg st2,
      Q = sumQty L
      ∧ hLookup st1.holdings coin = some ⟨Q, avg⟩
      ∧ Q * avg = sumAmounts L
      ∧ paperSell st1 coin (some pr) Q = some st2
      ∧ st2.balance - st0.balance = (pr - avg) * Q
      ∧ (0 < Q → avg = sumAmounts L / Q) := by
  rcases L with (_ | ⟨⟨a, p⟩, rest⟩)
  · exact absurd rfl hne
  obtain ⟨ha, hp⟩ := hpos (a, p) (List.mem_cons_self _ _)
  unfold buysFold at hfold
  unfold paperBuy at hfold
  rw [hempty] at hfold
  dsimp only at hfold
  by_cases hbal : st0.balance < a
  · rw [if_pos hbal] at hfold
    exact Option.noConfusion hfold
  rw [if_neg hbal] at hfold
  dsimp only at hfold
  have hq0 : 0 ≤ a / p := div_nonneg ha hp.le
  have hqp : a / p * p = a := div_mul_cancel₀ a hp.ne'
  have hmid : hLookup (hInsert st0.holdings coin ⟨a / p, p⟩) coin = some ⟨a / p, p⟩ :=
    hLookup_hInsert st0.holdings coin ⟨a / p, p⟩
  have hstep := buysFold_invariant coin rest ⟨st0.balance - a,
      hInsert st0.holdings coin ⟨a / p, p⟩,
      st0.orders ++ [⟨Side.buy, coin, a / p, p, a⟩],
      st0.trades ++ [⟨Side.buy, coin, a / p, p, a⟩]⟩ (a / p) p
      (fun x hx => hpos x (List.mem_cons_of_mem _ hx)) hmid hq0 st1 hfold
  obtain ⟨hbal1, avg, hl1, hinv1⟩ := hstep
  have hQdef : a / p + sumQty rest = sumQty ((a, p) :: rest) := by
    simp [sumQty]
  have hAdef : a + sumAmounts rest = sumAmounts ((a, p) :: rest) := by
    simp [sumAmounts]
  set Q : ℚ := a / p + sumQty rest with hQ
  have hinvQ : Q * avg = sumAmounts ((a, p) :: rest) := by
    rw [hinv1, hqp, ← hAdef]
  refine ⟨Q, avg, ⟨st1.balance + Q * pr, hErase st1.holdings coin,
      st1.orders ++ [⟨Side.sell, coin, Q, pr, Q * pr⟩],
      st1.trades ++ [⟨Side.sell, coin, Q, pr, Q * pr⟩]⟩,
      hQdef ▸ rfl, hl1, hinvQ, ?_, ?_, ?_⟩
  · unfold paperSell
    rw [hl1]
    simp only [Option.map_some', Option.getD_some]
    rw [if_neg (lt_irrefl Q), if_pos (by
      rw [sub_self]
      norm_num)]
  · show st1.balance + Q * pr - st0.balance = (pr - avg) * Q
    have hbal1' : st1.balance = st0.balance - a - sumAmounts rest := by
      rw [hbal1]
    rw [hbal1']
    have := hinvQ
    rw [← hAdef] at this
    nlinarith [this]
  · intro hQpos
    rw [← hinvQ, mul_comm, mul_div_assoc, div_self hQpos.ne', mul_one]

/-- Claim C9 witness: two buys, `100` at ask `10` and `50` at ask `5`,
then a full sell of the `20` units at bid `8`: the balance moves from
`10000` to `10010`, a net of `(8 - 15/2) * 20 = 10`. -/
theorem paperRoundTrip_pnl_witness :
    ∃ st2, paperSell ⟨9850, [("X", ⟨20, 15/2⟩)],
        [⟨Side.buy, "X", 10, 10, 100⟩, ⟨Side.buy, "X", 10, 5, 50⟩],
        [⟨Side.buy, "X", 10, 10, 100⟩, ⟨Side.buy, "X", 10, 5, 50⟩]⟩ "X" (some 8) 20 = some st2
      ∧ st2.balance - (10000 : ℚ) = (8 - 15/2) * 20 := by
  have hfold : buysFold "X" ⟨10000, [], [], []⟩ [(100, 10), (50, 5)]
      = some ⟨9850, [("X", ⟨20, 15/2⟩)], [⟨Side.buy, "X", 10, 10, 100⟩, ⟨Side.buy, "X", 10, 5, 50⟩],
          [⟨Side.buy, "X", 10, 10, 100⟩, ⟨Side.buy, "X", 10, 5, 50⟩]⟩ := by
    norm_num [buysFold, paperBuy, hLookup, hInsert]
  have h := paperRoundTrip_pnl "X" ⟨10000, [], [], []⟩ [(100, 10), (50, 5)] 8
      (by simp [hLookup]) (by norm_num) (by simp) _ hfold
  obtain ⟨Q, avg, st2, hQ, hl, hinv, hsell, hnet, -⟩ := h
  have hQval : Q = 20 := by
    rw [hQ]; norm_num [sumQty]
  have havg : avg = 15/2 := by
    have hl' : hLookup [("X", (⟨20, 15/2⟩ : PaperHolding))] "X" = some ⟨20, 15/2⟩ := by
      simp [hLookup]
    rw [show (⟨9850, [("X", ⟨20, 15/2⟩)], [⟨Side.buy, "X", 10, 10, 100⟩, ⟨Side.buy, "X", 10, 5, 50⟩],
          [⟨Side.buy, "X", 10, 10, 100⟩, ⟨Side.buy, "X", 10, 5, 50⟩]⟩ : PaperState).holdings
        = [("X", (⟨20, 15/2⟩ : PaperHolding))] from rfl] at hl
    rw [hl'] at hl
    injection hl with hl2
    have := congrArg PaperHolding.avg_cost hl2
    simpa using this.symm
  subst hQval
  subst havg
  exact ⟨st2, hsell, by simpa using hnet⟩

/-! ### Account snapshot with last-good fallback
(`src/pt_trader.py`, `manage_trades` lines 1654-1744 and the hub write at
lines 2244-2267)

`bpOpt = none` models an exception while reading
`account["buying_power"]`; `holdingsOpt = none` models a missing or
invalid holdings payload.  The buy/sell price maps are association lists
(`dict.get(sym, 0.0) or 0.0` is lookup with default `0`).  The returned
pair is (snapshot written to `trader_status.json` and
`account_value_history.jsonl`, new last-good snapshot). -/

structure AcctHolding where
  asset : String
  total_quantity : ℚ
deriving DecidableEq

structure Snapshot where
  total_account_value : ℚ
  buying_power : ℚ
  holdings_sell_value : ℚ
  holdings_buy_value : ℚ
  percent_in_trade : ℚ
deriving DecidableEq

/-- `prices.get(sym, 0.0) or 0.0`. -/
def lookupQ (m : List (String × ℚ)) (k : String) : ℚ :=
  ((m.find? (fun kv => kv.1 == k)).map (·.2)).getD 0

/-- One holding of the valuation loop: returns the updated
`(snapshot_ok, holdings_sell_value, holdings_buy_value)` accumulator. -/
def holdingStep (buyP sellP : List (String × ℚ)) (acc : Bool × ℚ × ℚ) (h : AcctHolding) :
    Bool × ℚ × ℚ :=
  if h.asset == "USDC" then acc
  else if h.total_quantity ≤ 0 then acc
  else
    let bp := lookupQ buyP (h.asset ++ "-USD")
    let sp := lookupQ sellP (h.asset ++ "-USD")
    if bp ≤ 0 ∨ sp ≤ 0 then (false, acc.2.1, acc.2.2)
    else (acc.1, acc.2.1 + h.total_quantity * sp, acc.2.2 + h.total_quantity * bp)

/-- The account-valuation part of one `manage_trades` tick: compute
`snapshot_ok`, the holdings values and `total_account_value`, then fall
back to the last complete snapshot when the tick is incomplete (or the
total is nonpositive) and a previous complete snapshot exists. -/
def computeSnapshot (bpOpt : Option ℚ) (holdingsOpt : Option (List AcctHolding))
    (buyP sellP : List (String × ℚ)) (prev : Option Snapshot) :
    Snapshot × Option Snapshot :=
  let ok0 := bpOpt.isSome && holdingsOpt.isSome
  let bp := bpOpt.getD 0
  let hl := holdingsOpt.getD []
  let acc := hl.foldl (holdingStep buyP sellP) (ok0, 0, 0)
  let total := bp + acc.2.1
  let inUse := if 0 < total then acc.2.1 / total * 100 else 0
  let snap : Snapshot := ⟨total, bp, acc.2.1, acc.2.2, inUse⟩
  if !acc.1 || total ≤ 0 then
    match prev with
    | some last => (last, prev)
    | none => (snap, prev)
  else
    (snap, some snap)

theorem holdingStep_preserves_false (buyP sellP : List (String × ℚ)) (acc : Bool × ℚ × ℚ)
    (h : AcctHolding) (hacc : acc.1 = false) :
    (holdingStep buyP sellP acc h).1 = false := by
  unfold holdingStep
  by_cases h1 : h.asset == "USDC"
  · simpa [h1] using hacc
  · by_cases h2 : h.total_quantity ≤ 0
    · simpa [h1, h2] using hacc
    · by_cases h3 : lookupQ buyP (h.asset ++ "-USD") ≤ 0 ∨ lookupQ sellP (h.asset ++ "-USD") ≤ 0
      · simp [h1, h2, h3]
      · simp [h1, h2, h3, hacc]

theorem holdingStep_false (buyP sellP : List (String × ℚ)) (l : List AcctHolding) :
    ∀ acc : Bool × ℚ × ℚ, acc.1 = false →
      (l.foldl (holdingStep buyP sellP) acc).1 = false := by
  induction l with
  | nil => intro acc hacc; simpa using hacc
  | cons h rest ih =>
    intro acc hacc
    rw [List.foldl_cons]
    exact ih _ (holdingStep_preserves_false buyP sellP acc h hacc)

theorem holdingStep_bad_mem (buyP sellP : List (String × ℚ)) (l : List AcctHolding)
    (h : AcctHolding) (hmem : h ∈ l) (hUSDC : ¬ h.asset = "USDC") (hqty : 0 < h.total_quantity)
    (hbad : lookupQ buyP (h.asset ++ "-USD") ≤ 0 ∨ lookupQ sellP (h.asset ++ "-USD") ≤ 0) :
    ∀ acc, (l.foldl (holdingStep buyP sellP) acc).1 = false := by
  induction l with
  | nil => exact absurd hmem (List.not_mem_nil h)
  | cons h0 rest ih =>
    intro acc
    rw [List.foldl_cons]
    rcases List.mem_cons.mp hmem with heq | hmem'
    · subst heq
      have hstep : holdingStep buyP sellP acc h
          = (false, acc.2.1, acc.2.2) := by
        unfold holdingStep
        rw [if_neg (by simpa using hUSDC), if_neg (not_le.mpr hqty), if_pos hbad]
      rw [hstep]
      exact holdingStep_false buyP sellP rest _ rfl
    · exact ih hmem' _

/-- Claim C5: on a tick where buying power and the holdings payload were
readable but some held non-USDC asset with positive quantity has no
usable bid or ask, or where the holdings payload itself is missing, the
snapshot written to the hub files carries exactly the previous complete
snapshot value of `total_account_value` (one exists by hypothesis). -/
theorem computeSnapshot_reuses_last (bpOpt : Option ℚ) (holdingsOpt : Option (List AcctHolding))
    (buyP sellP : List (String × ℚ)) (last : Snapshot)
    (hbad : holdingsOpt = none
      ∨ ∃ hl h, holdingsOpt = some hl ∧ h ∈ hl ∧ ¬ h.asset = "USDC" ∧ 0 < h.total_quantity
          ∧ (lookupQ buyP (h.asset ++ "-USD") ≤ 0 ∨ lookupQ sellP (h.asset ++ "-USD") ≤ 0)) :
    (computeSnapshot bpOpt holdingsOpt buyP sellP (some last)).1.total_account_value
      = last.total_account_value := by
  have hok : (((holdingsOpt.getD []).foldl (holdingStep buyP sellP)
      (bpOpt.isSome && holdingsOpt.isSome, 0, 0)).1) = false := by
    rcases hbad with hnone | ⟨hl, h, hsome, hmem, hUSDC, hqty, hbadp⟩
    · subst hnone
      simp only [Option.getD_none, Option.isSome_none, Bool.and_false]
      rfl
    · subst hsome
      exact holdingStep_bad_mem buyP sellP hl h hmem hUSDC hqty hbadp _
  unfold computeSnapshot
  dsimp only
  rw [hok]
  simp

/-- Claim C5 witness: BTC held with quantity `1` but bid `0` this tick;
the written total equals the last complete value `5000`. -/
theorem computeSnapshot_reuses_last_witness :
    (computeSnapshot (some 1000) (some [⟨"BTC", 1⟩]) [("BTC-USD", 30000)] [("BTC-USD", 0)]
        (some ⟨5000, 1000, 4000, 4000, 80⟩)).1.total_account_value = 5000 := by
  have h := computeSnapshot_reuses_last (some 1000) (some [⟨"BTC", 1⟩])
      [("BTC-USD", 30000)] [("BTC-USD", 0)] ⟨5000, 1000, 4000, 4000, 80⟩
      (Or.inr ⟨[⟨"BTC", 1⟩], ⟨"BTC", 1⟩, rfl, List.mem_singleton_self _, by simp, by norm_num,
        Or.inr (by simp [lookupQ])⟩)
  simpa using h

/-! ### Ed25519 buy path precision-repair loop
(`src/pt_trader.py`, `place_buy_order` lines 1476-1533; the identical loop
lives in `src/brokers/robinhood.py`, lines 169-201)

Python `round(x, n)` is round-half-to-even; on the exact rational model
this is `pyRound`.  The claim inputs are not ties, so the binary-float
realisation agrees with the exact model there.  A server error detail is
abstracted by what the parser extracts from it: a
`"has too much precision; nearest <value>"` detail carries the fractional
digits of `<value>` (the text between the dot and the following space),
and `len(nearest_value.split(".")[1].rstrip("0"))` is `decimalPlaces`. -/

/-- Round half to even of a rational to an integer. -/
def roundHalfEven (x : ℚ) : ℤ :=
  let f := ⌊x⌋
  let r := x - (f : ℚ)
  if r < 1/2 then f
  else if 1/2 < r then f + 1
  else if f % 2 = 0 then f else f + 1

/-- Python `round(x, n)`: round half to even at `n` decimal places. -/
def pyRound (x : ℚ) (n : ℕ) : ℚ :=
  (roundHalfEven (x * 10 ^ n) : ℚ) / 10 ^ n

/-- `len(nearest_value.split(".")[1].rstrip("0"))`: the number of
fractional digits of the server-provided nearest value after stripping
trailing zeros. -/
def decimalPlaces (ds : List ℕ) : ℕ :=
  ((ds.reverse.dropWhile (· == 0)).reverse).length

/-- What the error scanner extracts from one error detail. -/
inductive ErrDetail where
  | precisionErr (fracDigits : List ℕ)
  | thresholdErr
  | otherErr
deriving DecidableEq

/-- A server response to one order submission. -/
inductive BuyResp where
  | success
  | errResp (errors : List ErrDetail)
  | nullResp
deriving DecidableEq

inductive ScanOut where
  | repair (n : ℕ)
  | abort
  | na
deriving DecidableEq

/-- The `for error in response["errors"]` scan: the first matching detail
wins; a precision error re-rounds (`break`), a threshold error returns
null, anything else is skipped. -/
def scanErrors : List ErrDetail → ScanOut
  | [] => .na
  | .precisionErr ds :: _ => .repair (decimalPlaces ds)
  | .thresholdErr :: _ => .abort
  | .otherErr :: rest => scanErrors rest

/-- The retry loop of the buy path, `fuel` attempts remaining
(`max_retries = 5`).  Returns the list of submitted quantities (each
`round(asset_quantity, 8)`) and whether an attempt succeeded. -/
def buyAttempts (server : ℚ → BuyResp) : ℕ → ℚ → List ℚ × Bool
  | 0, _ => ([], false)
  | Nat.succ n, qty =>
    let rq := pyRound qty 8
    match server rq with
    | .success => ([rq], true)
    | .nullResp =>
      let out := buyAttempts server n qty
      (rq :: out.1, out.2)
    | .errResp es =>
      match scanErrors es with
      | .abort => ([rq], false)
      | .repair k =>
        let out := buyAttempts server n (pyRound qty k)
        (rq :: out.1, out.2)
      | .na =>
        let out := buyAttempts server n qty
        (rq :: out.1, out.2)

/-- `CryptoAPITrading.place_buy_order` retry loop with `max_retries = 5`. -/
def placeBuyLoop (server : ℚ → BuyResp) (qty : ℚ) : List ℚ × Bool :=
  buyAttempts server 5 qty

/-- Server of the claim scenario: the first submission
(`round(0.00123456789, 8) = 0.00123457`) draws a precision error whose
nearest value is `0.000001`; any other quantity is accepted. -/
def scenarioServer : ℚ → BuyResp := fun q =>
  if q = 123457/100000000 then .errResp [.precisionErr [0, 0, 0, 0, 0, 1]]
  else .success

/-- Server whose error list holds a precision error followed by a
threshold error. -/
def mixedErrServer : ℚ → BuyResp := fun q =>
  if q = 123457/100000000 then .errResp [.precisionErr [0, 0, 0, 0, 0, 1], .thresholdErr]
  else .success

theorem buyAttempts_length (server : ℚ → BuyResp) :
    ∀ (n : ℕ) (qty : ℚ), (buyAttempts server n qty).1.length ≤ n := by
  intro n
  induction n with
  | zero => intro qty; simp [buyAttempts]
  | succ n ih =>
    intro qty
    unfold buyAttempts
    dsimp only
    rcases hsv : server (pyRound qty 8) with (_ | es | _)
    · simp
    · dsimp only
      rcases hsc : scanErrors es with (k | _ | _)
      · simpa using Nat.succ_le_succ (ih (pyRound qty k))
      · simp
      · simpa using Nat.succ_le_succ (ih qty)
    · simpa using Nat.succ_le_succ (ih qty)

/-- Claim C7, counterexample to the concrete scenario (and to the
unconditional immediate abort): with submitted quantity `0.00123456789`
and server nearest value `0.000001`, the resubmitted quantity is
`round(0.00123456789, 6) = 0.001235`, not `0.001234`; and a response
listing a precision error before a threshold error retries instead of
aborting. -/
theorem placeBuyLoop_claim_counterexample :
    placeBuyLoop scenarioServer (123456789/100000000000)
      = ([123457/100000000, 1235/1000000], true)
    ∧ ((1235 : ℚ)/1000000 ≠ 1234/1000000)
    ∧ placeBuyLoop mixedErrServer (123456789/100000000000)
      = ([123457/100000000, 1235/1000000], true) := by
  refine ⟨?_, by norm_num, ?_⟩ <;>
    norm_num [placeBuyLoop, buyAttempts, scenarioServer, mixedErrServer, scanErrors,
      decimalPlaces, pyRound, roundHalfEven]

/-- Server that always reports a minimum-threshold violation
(`"must be greater than or equal to ..."`). -/
def thresholdServer : ℚ → BuyResp := fun _ => .errResp [.thresholdErr]

/-- Claim C7 (amended): the buy loop makes at most 5 attempts before
returning null; a response whose error scan hits a threshold error first
(no earlier precision error) aborts immediately with null; a response
whose scan hits a precision error first re-rounds the asset quantity to
the extracted decimal-place count and retries; and in the concrete
scenario (`qty = 0.00123456789`, nearest value `0.000001`) the
resubmitted quantity is `0.001235` and the order succeeds on attempt 2. -/
theorem placeBuyLoop_amended_spec :
    (∀ (server : ℚ → BuyResp) (qty : ℚ), (placeBuyLoop server qty).1.length ≤ 5)
    ∧ (∀ (server : ℚ → BuyResp) (qty : ℚ) (es : List ErrDetail),
        server (pyRound qty 8) = .errResp es → scanErrors es = .abort →
        placeBuyLoop server qty = ([pyRound qty 8], false))
    ∧ (∀ (server : ℚ → BuyResp) (qty : ℚ) (es : List ErrDetail) (k : ℕ),
        server (pyRound qty 8) = .errResp es → scanErrors es = .repair k →
        placeBuyLoop server qty
          = (pyRound qty 8 :: (buyAttempts server 4 (pyRound qty k)).1,
             (buyAttempts server 4 (pyRound qty k)).2))
    ∧ placeBuyLoop scenarioServer (123456789/100000000000)
        = ([123457/100000000, 1235/1000000], true) := by
  refine ⟨?_, ?_, ?_, ?_⟩
  · intro server qty
    exact buyAttempts_length server 5 qty
  · intro server qty es hsv hsc
    unfold placeBuyLoop buyAttempts
    dsimp only
    rw [hsv]
    dsimp only
    rw [hsc]
  · intro server qty es k hsv hsc
    unfold placeBuyLoop buyAttempts
    dsimp only
    rw [hsv]
    dsimp only
    rw [hsc]
    rfl
  · norm_num [placeBuyLoop, buyAttempts, scenarioServer, scanErrors,
      decimalPlaces, pyRound, roundHalfEven]

/-- Claim C7 witness: the threshold server aborts on the first attempt
with null, and the scenario trace has length 2 (at most 5 attempts). -/
theorem placeBuyLoop_amended_spec_witness :
    placeBuyLoop thresholdServer 1 = ([1], false)
    ∧ (placeBuyLoop scenarioServer (123456789/100000000000)).1.length ≤ 5 := by
  constructor
  · have h := placeBuyLoop_amended_spec.2.1 thresholdServer 1 [.thresholdErr] rfl rfl
    have hr : pyRound 1 8 = 1 := by
      norm_num [pyRound, roundHalfEven]
    rw [hr] at h
    exact h
  · exact placeBuyLoop_amended_spec.1 scenarioServer (123456789/100000000000)

/-! ### Order history model
(`src/pt_trader.py`: orders as returned by `get_orders(...)["results"]`)

`filled` embeds `order["state"] == "filled"`; `created_at` timestamps are
integers (any totally ordered timestamp representation works for the
comparisons the source performs). -/

structure Execution where
  quantity : ℚ
  effective_price : ℚ
deriving DecidableEq

structure Order where
  side : Side
  filled : Bool
  created_at : ℤ
  executions : List Execution
deriving DecidableEq

/-- Ascending `sort(key=lambda x: x["created_at"])`: a stable sort, as is
Python Timsort. -/
def ordAsc : Order → Order → Prop := fun a b => a.created_at ≤ b.created_at

instance : DecidableRel ordAsc := fun a b =>
  inferInstanceAs (Decidable (a.created_at ≤ b.created_at))

instance : IsTotal Order ordAsc := ⟨fun a b => le_total a.created_at b.created_at⟩

instance : IsTrans Order ordAsc := ⟨fun _ _ _ h1 h2 => le_trans h1 h2⟩

/-! ### `CryptoAPITrading.initialize_dca_levels`
(`src/pt_trader.py`, lines 844-928), for one coin -/

/-- Filter for filled buy and sell orders. -/
def filledBuySell (orders : List Order) : List Order :=
  orders.filter (fun o => o.filled && (o.side == Side.buy || o.side == Side.sell))

/-- Timestamp of the most recent sell: the last sell in the
ascending-sorted filled orders. -/
def mostRecentSellTime (orders : List Order) : Option ℤ :=
  (((List.insertionSort ordAsc (filledBuySell orders)).reverse.find?
      (fun o => o.side == Side.sell)).map (·.created_at))

/-- The current trade: filled buys strictly after the most recent sell,
or all filled buys when no sell exists. -/
def relevantBuyOrders (orders : List Order) : List Order :=
  match mostRecentSellTime orders with
  | some t => (List.insertionSort ordAsc (filledBuySell orders)).filter
      (fun o => o.side == Side.buy && decide (t < o.created_at))
  | none => (List.insertionSort ordAsc (filledBuySell orders)).filter
      (fun o => o.side == Side.buy)

/-- `initialize_dca_levels` for one coin: `none` models the skip when no
filled buy or sell order exists; `some n` models
`self.dca_levels_triggered[symbol] = list(range(n))`. -/
def initializeDcaStages (orders : List Order) : Option ℕ :=
  if filledBuySell orders = [] then none
  else
    match List.insertionSort ordAsc (relevantBuyOrders orders) with
    | [] => some 0
    | fb :: _ => some ((List.insertionSort ordAsc (relevantBuyOrders orders)).filter
        (fun o => decide (fb.created_at < o.created_at))).length

/-- Claim C8: with at least one filled buy in the current trade, the
triggered-stage count is the number of current-trade buys whose
`created_at` is strictly greater than the first (earliest) such buy;
buys sharing the first buy timestamp are not counted, and when all
current-trade timestamps are distinct the count is exactly the number of
current-trade buys minus one. -/
theorem initializeDcaStages_spec (orders : List Order)
    (hne : relevantBuyOrders orders ≠ []) (hfil : filledBuySell orders ≠ []) :
    ∃ fb rest, List.insertionSort ordAsc (relevantBuyOrders orders) = fb :: rest
      ∧ initializeDcaStages orders
          = some ((relevantBuyOrders orders).countP
              (fun o => decide (fb.created_at < o.created_at)))
      ∧ (∀ o ∈ relevantBuyOrders orders, fb.created_at ≤ o.created_at)
      ∧ (((relevantBuyOrders orders).map (·.created_at)).Nodup →
          (relevantBuyOrders orders).countP (fun o => decide (fb.created_at < o.created_at)) + 1
            = (relevantBuyOrders orders).length) := by
  set relevant := relevantBuyOrders orders with hrel
  rcases hsplit : List.insertionSort ordAsc relevant with (_ | ⟨fb, rest⟩)
  · have hperm := List.perm_insertionSort ordAsc relevant
    rw [hsplit] at hperm
    exact absurd hperm.symm.eq_nil hne
  have hperm := List.perm_insertionSort ordAsc relevant
  have hsorted := List.sorted_insertionSort ordAsc relevant
  rw [hsplit] at hperm hsorted
  have hmin : ∀ o ∈ relevant, fb.created_at ≤ o.created_at := by
    intro o ho
    rcases List.mem_cons.mp (hperm.symm.subset ho) with heq | hmem
    · rw [heq]
    · exact List.rel_of_sorted_cons hsorted o hmem
  refine ⟨fb, rest, rfl, ?_, hmin, ?_⟩
  · unfold initializeDcaStages
    rw [if_neg hfil, ← hrel, hsplit]
    dsimp only
    congr 1
    rw [← List.countP_eq_length_filter]
    exact hperm.countP_eq _
  · intro hnd
    have hfb_mem : fb ∈ relevant := hperm.subset (List.mem_cons_self fb rest)
    have hsum := List.length_eq_countP_add_countP
      (fun o => decide (fb.created_at < o.created_at)) relevant
    have hcnt1 : relevant.countP
          (fun o => decide (¬ (decide (fb.created_at < o.created_at)) = true))
        = (relevant.map (·.created_at)).count fb.created_at := by
      rw [List.count, List.countP_map]
      apply List.countP_congr
      intro o ho
      have hole := hmin o ho
      constructor
      · intro h
        simp only [decide_eq_true_eq, decide_eq_false_iff_not, not_lt] at h
        simpa using le_antisymm h hole
      · intro h
        simp only [Function.comp_apply, beq_iff_eq] at h
        simp [h]
    have hcount_one : (relevant.map (·.created_at)).count fb.created_at = 1 :=
      List.count_eq_one_of_mem hnd (List.mem_map_of_mem _ hfb_mem)
    rw [hsum, hcnt1, hcount_one]

/-- Example history: one filled sell at time 0, then filled buys at times
1, 2, 3 (the current trade). -/
def exampleOrders : List Order :=
  [⟨Side.sell, true, 0, []⟩, ⟨Side.buy, true, 1, []⟩,
   ⟨Side.buy, true, 2, []⟩, ⟨Side.buy, true, 3, []⟩]

/-- Claim C8 witness: three current-trade buys with distinct timestamps
give a triggered-stage count of `2`. -/
theorem initializeDcaStages_spec_witness :
    initializeDcaStages exampleOrders = some 2
    ∧ (relevantBuyOrders exampleOrders).length = 3 := by
  refine ⟨?_, by decide⟩
  obtain ⟨fb, rest, hsplit, hcount, -, -⟩ :=
    initializeDcaStages_spec exampleOrders (by decide) (by decide)
  have hlist : List.insertionSort ordAsc (relevantBuyOrders exampleOrders)
      = [⟨Side.buy, true, 1, []⟩, ⟨Side.buy, true, 2, []⟩, ⟨Side.buy, true, 3, []⟩] := by
    decide
  rw [hlist] at hsplit
  injection hsplit with h1 h2
  subst h1
  rw [hcount]
  decide

/-! ### `CryptoAPITrading.calculate_cost_basis`
(`src/pt_trader.py`, lines 1279-1331), for one asset

The buys are sorted most recent first
(`sort(key=lambda x: x["created_at"], reverse=True)`, a stable descending
sort) and their executions are consumed until the accumulated quantity
reaches the current holding. -/

/-- Descending stable sort order of
`sort(key=lambda x: x["created_at"], reverse=True)`. -/
def ordDesc : Order → Order → Prop := fun a b => b.created_at ≤ a.created_at

instance : DecidableRel ordDesc := fun a b =>
  inferInstanceAs (Decidable (b.created_at ≤ a.created_at))

instance : IsTotal Order ordDesc := ⟨fun a b => le_total b.created_at a.created_at⟩

instance : IsTrans Order ordDesc := ⟨fun _ _ _ h1 h2 => le_trans h2 h1⟩

/-- All filled buy orders of the asset. -/
def filledBuys (orders : List Order) : List Order :=
  orders.filter (fun o => o.side == Side.buy && o.filled)

/-- The inner loop over one order's executions: returns
`(cost added, remaining quantity)`. -/
def backfillExecs : List Execution → ℚ → ℚ × ℚ
  | [], r => (0, r)
  | e :: rest, r =>
    if r ≤ 0 then (0, r)
    else if r < e.quantity then (r * e.effective_price, 0)
    else
      let out := backfillExecs rest (r - e.quantity)
      (e.quantity * e.effective_price + out.1, out.2)

/-- The outer loop over the sorted buy orders: total cost of the
back-fill. -/
def backfillOrders : List Order → ℚ → ℚ
  | [], _ => 0
  | o :: os, r =>
    let out := backfillExecs o.executions r
    if out.2 ≤ 0 then out.1 else out.1 + backfillOrders os out.2

/-- `calculate_cost_basis` for one asset with current quantity `Q`. -/
def costBasisAsset (orders : List Order) (Q : ℚ) : ℚ :=
  if 0 < Q then backfillOrders (List.insertionSort ordDesc (filledBuys orders)) Q / Q
  else 0

/-- The back-fill over an already flattened execution stream (the nested
loops of the source are equivalent to this by `backfillOrders_eq_flat`). -/
def backfill : List Execution → ℚ → ℚ
  | [], _ => 0
  | e :: rest, r =>
    if r ≤ 0 then 0
    else if r < e.quantity then r * e.effective_price
    else e.quantity * e.effective_price + backfill rest (r - e.quantity)

/-- Execution stream of a list of orders, in order. -/
def flatExecs (os : List Order) : List Execution :=
  (os.map (·.executions)).flatten

/-- Total execution quantity of an execution stream. -/
def totalQtyE (es : List Execution) : ℚ := (es.map (·.quantity)).sum

/-- Total execution quantity of a list of orders. -/
def totalQtyOrders (os : List Order) : ℚ := totalQtyE (flatExecs os)

/-- Timestamp of the most recent filled sell. -/
def lastSellTime (orders : List Order) : Option ℤ :=
  ((orders.filter (fun o => o.side == Side.sell && o.filled)).map (·.created_at)).max?

/-- The filled buy history since the last sell: filled buys whose
`created_at` is strictly greater than the most recent filled sell
timestamp (all filled buys when no sell exists). -/
def buysAfterLastSell (orders : List Order) : List Order :=
  match lastSellTime orders with
  | some s => (filledBuys orders).filter (fun o => decide (s < o.created_at))
  | none => filledBuys orders

theorem backfill_nonpos (es : List Execution) (r : ℚ) (hr : r ≤ 0) : backfill es r = 0 := by
  cases es with
  | nil => rfl
  | cons e rest => rw [backfill, if_pos hr]

theorem backfill_append (xs ys : List Execution) :
    ∀ r, backfill (xs ++ ys) r
      = (backfillExecs xs r).1 + backfill ys (backfillExecs xs r).2 := by
  induction xs with
  | nil => intro r; simp [backfillExecs]
  | cons e rest ih =>
    intro r
    by_cases h0 : r ≤ 0
    · rw [List.cons_append, backfill, if_pos h0, backfillExecs, if_pos h0]
      rw [backfill_nonpos ys r h0]
      ring
    · by_cases h1 : r < e.quantity
      · rw [List.cons_append, backfill, if_neg h0, if_pos h1, backfillExecs, if_neg h0, if_pos h1]
        rw [backfill_nonpos ys 0 (le_refl 0)]
        ring
      · rw [List.cons_append, backfill, if_neg h0, if_neg h1, backfillExecs, if_neg h0, if_neg h1]
        rw [ih (r - e.quantity)]
        dsimp only
        ring

theorem backfillOrders_eq_flat (os : List Order) :
    ∀ r, backfillOrders os r = backfill (flatExecs os) r := by
  induction os with
  | nil => intro r; rfl
  | cons o rest ih =>
    intro r
    rw [backfillOrders]
    have hflat : flatExecs (o :: rest) = o.executions ++ flatExecs rest := by
      simp [flatExecs]
    rw [hflat, backfill_append o.executions (flatExecs rest) r]
    by_cases h2 : (backfillExecs o.executions r).2 ≤ 0
    · rw [if_pos h2, backfill_nonpos _ _ h2, add_zero]
    · rw [if_neg h2, ih]

theorem backfill_append_covered (xs ys : List Execution) :
    ∀ r, r ≤ totalQtyE xs → backfill (xs ++ ys) r = backfill xs r := by
  induction xs with
  | nil =>
    intro r hr
    simp only [totalQtyE, List.map_nil, List.sum_nil] at hr
    rw [List.nil_append, backfill_nonpos ys r hr]
    rfl
  | cons e rest ih =>
    intro r hr
    by_cases h0 : r ≤ 0
    · rw [List.cons_append, backfill, if_pos h0, backfill, if_pos h0]
    · by_cases h1 : r < e.quantity
      · rw [List.cons_append, backfill, if_neg h0, if_pos h1, backfill, if_neg h0, if_pos h1]
      · rw [List.cons_append, backfill, if_neg h0, if_neg h1, backfill, if_neg h0, if_neg h1]
        congr 1
        apply ih
        simp only [totalQtyE, List.map_cons, List.sum_cons] at hr
        simp only [totalQtyE]
        linarith

theorem backfill_min_step (e : Execution) (rest : List Execution) (r : ℚ) :
    backfill (e :: rest) r
      = if r ≤ 0 then 0
        else min e.quantity r * e.effective_price
          + backfill rest (r - min e.quantity r) := by
  by_cases h0 : r ≤ 0
  · rw [backfill, if_pos h0, if_pos h0]
  · by_cases h1 : r < e.quantity
    · rw [backfill, if_neg h0, if_pos h1, if_neg h0, min_eq_right h1.le, sub_self]
      rw [backfill_nonpos rest 0 (le_refl 0), add_zero]
    · rw [backfill, if_neg h0, if_neg h1, if_neg h0, min_eq_left (not_lt.mp h1)]

theorem orderedInsert_append_front (x : Order) (A B : List Order)
    (hB : ∀ b ∈ B, ordDesc x b) :
    List.orderedInsert ordDesc x (A ++ B) = List.orderedInsert ordDesc x A ++ B := by
  induction A with
  | nil =>
    cases B with
    | nil => rfl
    | cons b B2 =>
      simp only [List.nil_append, List.orderedInsert]
      rw [if_pos (hB b (List.mem_cons_self b B2))]
      rfl
  | cons a A2 ih =>
    simp only [List.cons_append, List.orderedInsert, List.append_eq]
    by_cases hxa : ordDesc x a
    · rw [if_pos hxa, if_pos hxa]
      rfl
    · rw [if_neg hxa, if_neg hxa, ih]
      rfl

theorem orderedInsert_append_skip (x : Order) (A B : List Order)
    (hA : ∀ a ∈ A, ¬ ordDesc x a) :
    List.orderedInsert ordDesc x (A ++ B) = A ++ List.orderedInsert ordDesc x B := by
  induction A with
  | nil => rfl
  | cons a A2 ih =>
    simp only [List.cons_append, List.orderedInsert, List.append_eq]
    rw [if_neg (hA a (List.mem_cons_self a A2))]
    rw [ih (fun a2 ha2 => hA a2 (List.mem_cons_of_mem a ha2))]

/-- Stable-sort split along a timestamp cutoff: the descending sort of a
list whose elements are partitioned by `s < created_at` is the sort of
the late part followed by the sort of the early part. -/
theorem insertionSort_split (s : ℤ) (l : List Order) :
    List.insertionSort ordDesc l
      = List.insertionSort ordDesc (l.filter (fun o => decide (s < o.created_at)))
        ++ List.insertionSort ordDesc (l.filter (fun o => !decide (s < o.created_at))) := by
  induction l with
  | nil => rfl
  | cons x l2 ih =>
    by_cases hx : s < x.created_at
    · rw [List.insertionSort, ih]
      rw [orderedInsert_append_front x _ _ ?_]
      · rw [List.filter_cons_of_pos (by simpa using hx),
          List.filter_cons_of_neg (by simpa using hx)]
        rfl
      · intro b hb
        have hb2 : b ∈ l2.filter (fun o => !decide (s < o.created_at)) := by
          simpa using hb
        have := List.of_mem_filter hb2
        simp only [Bool.not_eq_true', decide_eq_false_iff_not, not_lt] at this
        exact le_trans this hx.le
    · rw [List.insertionSort, ih]
      rw [orderedInsert_append_skip x _ _ ?_]
      · rw [List.filter_cons_of_neg (by simpa using hx),
          List.filter_cons_of_pos (by simpa using hx)]
        rfl
      · intro a ha
        have ha2 : a ∈ l2.filter (fun o => decide (s < o.created_at)) := by
          simpa using ha
        have := List.of_mem_filter ha2
        simp only [decide_eq_true_eq] at this
        unfold ordDesc
        push_neg
        omega

theorem flatExecs_append (A B : List Order) :
    flatExecs (A ++ B) = flatExecs A ++ flatExecs B := by
  simp [flatExecs]

theorem totalQtyOrders_eq_sum (os : List Order) :
    totalQtyOrders os = (os.map (fun o => totalQtyE o.executions)).sum := by
  induction os with
  | nil => rfl
  | cons o rest ih =>
    have : flatExecs (o :: rest) = o.executions ++ flatExecs rest := by
      simp [flatExecs]
    simp only [totalQtyOrders] at ih ⊢
    rw [this, List.map_cons, List.sum_cons, ← ih]
    simp [totalQtyE]

theorem totalQtyOrders_perm (A B : List Order) (h : List.Perm A B) :
    totalQtyOrders A = totalQtyOrders B := by
  rw [totalQtyOrders_eq_sum, totalQtyOrders_eq_sum]
  exact (h.map (fun o => totalQtyE o.executions)).sum_eq

/-- With enough quantity covered by the buys after the last sell, the
back-fill never reaches the buys at or before it. -/
theorem backfillOrders_eq_post (orders : List Order) (Q : ℚ)
    (hcover : Q ≤ totalQtyOrders (buysAfterLastSell orders)) :
    backfillOrders (List.insertionSort ordDesc (filledBuys orders)) Q
      = backfill (flatExecs (List.insertionSort ordDesc (buysAfterLastSell orders))) Q := by
  rcases hls : lastSellTime orders with (_ | s)
  · rw [backfillOrders_eq_flat]
    unfold buysAfterLastSell
    rw [hls]
  · have hpost : buysAfterLastSell orders
        = (filledBuys orders).filter (fun o => decide (s < o.created_at)) := by
      unfold buysAfterLastSell
      rw [hls]
    rw [backfillOrders_eq_flat, insertionSort_split s (filledBuys orders), flatExecs_append]
    rw [hpost]
    apply backfill_append_covered
    have hperm := List.perm_insertionSort ordDesc
      ((filledBuys orders).filter (fun o => decide (s < o.created_at)))
    have heq : totalQtyE (flatExecs (List.insertionSort ordDesc
        ((filledBuys orders).filter (fun o => decide (s < o.created_at)))))
        = totalQtyOrders (buysAfterLastSell orders) := by
      rw [hpost]
      exact totalQtyOrders_perm _ _ hperm
    rw [heq]
    exact hcover

/-- Claim C4, counterexample to purity: two order histories that agree on
the filled buys after the most recent sell (one buy of quantity 1 at
price 10), with current quantity 2, give different cost bases (55 vs
11/2), because the back-fill reaches past the sell into buys whose
prices differ between the histories. -/
def cbOrders1 : List Order :=
  [⟨Side.buy, true, 0, [⟨5, 100⟩]⟩, ⟨Side.sell, true, 1, []⟩, ⟨Side.buy, true, 2, [⟨1, 10⟩]⟩]

def cbOrders2 : List Order :=
  [⟨Side.buy, true, 0, [⟨5, 1⟩]⟩, ⟨Side.sell, true, 1, []⟩, ⟨Side.buy, true, 2, [⟨1, 10⟩]⟩]

theorem costBasis_claim_counterexample :
    buysAfterLastSell cbOrders1 = buysAfterLastSell cbOrders2
    ∧ costBasisAsset cbOrders1 2 = 55
    ∧ costBasisAsset cbOrders2 2 = 11/2
    ∧ (55 : ℚ) ≠ 11/2 := by
  refine ⟨by decide, ?_, ?_, by norm_num⟩ <;>
    norm_num [costBasisAsset, backfillOrders, backfillExecs, filledBuys,
      cbOrders1, cbOrders2, List.insertionSort, List.orderedInsert, ordDesc]

/-- Claim C4 (amended): for a held quantity `Q > 0` the cost basis is the
back-fill total divided by `Q`, where the back-fill consumes
`min(execution_quantity, remaining) * effective_price` newest to oldest
until the remaining quantity reaches zero; and the result is a pure
function of (current quantity, filled buy history since the last sell)
PROVIDED the buys after the most recent sell cover the current quantity
(`Q ≤ ` their total execution quantity): two histories that agree on
those buys and on `Q` give identical results. -/
theorem calculateCostBasis_spec :
    (∀ (e : Execution) (rest : List Execution) (r : ℚ),
      backfill (e :: rest) r
        = if r ≤ 0 then 0
          else min e.quantity r * e.effective_price
            + backfill rest (r - min e.quantity r))
    ∧ (∀ (orders : List Order) (Q : ℚ), 0 < Q →
        costBasisAsset orders Q
          = backfillOrders (List.insertionSort ordDesc (filledBuys orders)) Q / Q)
    ∧ (∀ (o1 o2 : List Order) (Q : ℚ),
        buysAfterLastSell o1 = buysAfterLastSell o2 →
        Q ≤ totalQtyOrders (buysAfterLastSell o1) →
        costBasisAsset o1 Q = costBasisAsset o2 Q) := by
  refine ⟨backfill_min_step, ?_, ?_⟩
  · intro orders Q hQ
    unfold costBasisAsset
    rw [if_pos hQ]
  · intro o1 o2 Q hagree hcover
    by_cases hQ : 0 < Q
    · unfold costBasisAsset
      rw [if_pos hQ, if_pos hQ]
      congr 1
      rw [backfillOrders_eq_post o1 Q hcover,
        backfillOrders_eq_post o2 Q (hagree ▸ hcover), hagree]
    · unfold costBasisAsset
      rw [if_neg hQ, if_neg hQ]

/-- Claim C4 witness: the two counterexample histories agree on the
post-sell buys, which cover a current quantity of `1/2`; the cost bases
then agree (both `10`). -/
theorem calculateCostBasis_spec_witness :
    costBasisAsset cbOrders1 (1/2) = costBasisAsset cbOrders2 (1/2)
    ∧ costBasisAsset cbOrders1 (1/2) = 10 := by
  constructor
  · apply calculateCostBasis_spec.2.2 cbOrders1 cbOrders2 (1/2) (by decide)
    have hb : buysAfterLastSell cbOrders1
        = [⟨Side.buy, true, 2, [⟨1, 10⟩]⟩] := by decide
    rw [hb]
    norm_num [totalQtyOrders, totalQtyE, flatExecs]
  · norm_num [costBasisAsset, backfillOrders, backfillExecs, filledBuys,
      cbOrders1, List.insertionSort, List.orderedInsert, ordDesc]
